import Mathlib

/-!
Shallow embedding of the joplin-heading-navigator plugin.

Sources embedded here:
- src/src/headingExtractor.ts   (stripInlineMarkdown, normalizeHeadingText,
  createUniqueAnchor, extractHeadings)
- src/src/contentScripts/ui/headingPanel.ts  (applyFilter, setHeadings, update,
  moveSelection)
- src/src/contentScripts/headingNavigator content script (createScrollVerifier)
- src/src/linkFormatting.ts  (escapeLinkText, formatHeadingLink)

JavaScript strings are modelled as Lean String / List Char (positions are code
units; all concrete inputs used below are ASCII, where the two coincide).
Regex replacement passes are modelled as left-to-right scans that attempt the
pattern at each position, emit the replacement on a match and resume after the
consumed characters, exactly as a global JavaScript regex replace does for
these patterns (none of which can match the empty string).
-/

/-- Character class of the JavaScript regex escape \s, restricted to the
code points that can occur in the inputs of interest (ASCII whitespace plus
the no-break space). -/
def jsWs (c : Char) : Bool :=
  c = ' ' || c = '\t' || c = '\n' || c = '\r' || c = '\x0b' || c = '\x0c' || c = ' '

/-- Model of JavaScript String.prototype.trim on a character list. -/
def trimList (s : List Char) : List Char :=
  ((s.dropWhile jsWs).reverse.dropWhile jsWs).reverse

/-- Model of JavaScript String.prototype.slice with non-negative indices:
content.slice(a, b) clamps and returns the empty string when a >= b. -/
def jsSlice (s : String) (a b : Nat) : String :=
  ⟨(s.data.take b).drop a⟩

/-- Split a character list at the first occurrence of a stop character:
returns the characters strictly before it and the remainder strictly after
it, or none when the stop character does not occur. This is the shape of a
greedy regex fragment of the form not-stop-star followed by the stop char. -/
def splitUntil (stop : Char) : List Char → Option (List Char × List Char)
  | [] => none
  | c :: cs =>
    if c = stop then some ([], cs)
    else (splitUntil stop cs).map fun p => (c :: p.1, p.2)

/-- One attempted match of the inline-image pattern at the current position.
Returns the replacement (the alt text, capture group 1) and the rest of the
input after the match. -/
def tryImage : List Char → Option (List Char × List Char)
  | '!' :: '[' :: t => do
    let p ← splitUntil ']' t
    match p.2 with
    | '(' :: t2 => do
      let q ← splitUntil ')' t2
      if q.1.isEmpty then none else some (p.1, q.2)
    | _ => none
  | _ => none

/-- One attempted match of the inline/reference link pattern at the current
position. The label (group 1) is kept; the whitespace between label and
target and the target itself are dropped. -/
def tryLink : List Char → Option (List Char × List Char)
  | '[' :: t => do
    let p ← splitUntil ']' t
    match p.2.dropWhile jsWs with
    | '(' :: t2 => do
      let q ← splitUntil ')' t2
      if q.1.isEmpty then none else some (p.1, q.2)
    | '[' :: t2 => do
      let q ← splitUntil ']' t2
      some (p.1, q.2)
    | _ => none
  | _ => none

/-- One attempted match of a doubled-delimiter emphasis pattern
(two delimiters, one or more non-delimiter characters, two delimiters). -/
def tryDouble (d : Char) : List Char → Option (List Char × List Char)
  | a :: b :: t =>
    if a = d && b = d then do
      let p ← splitUntil d t
      if p.1.isEmpty then none
      else
        match p.2 with
        | c :: t2 => if c = d then some (p.1, t2) else none
        | [] => none
    else none
  | _ => none

/-- One attempted match of a single-delimiter pattern (delimiter, one or more
non-delimiter characters, delimiter). Used for single-star emphasis and for
inline code spans. -/
def trySingle (d : Char) : List Char → Option (List Char × List Char)
  | a :: t =>
    if a = d then do
      let p ← splitUntil d t
      if p.1.isEmpty then none else some (p.1, p.2)
    else none
  | _ => none

/-- Characters accepted after a backslash by the escape-resolution pass. -/
def escapeSet : List Char :=
  ['\\', '\x60', '*', '_', '\x7b', '\x7d', '[', ']', '(', ')', '#', '+', '-', '.', '!']

/-- One attempted match of the escaped-character pattern. -/
def tryEsc : List Char → Option (List Char × List Char)
  | '\\' :: c :: t => if escapeSet.contains c then some ([c], t) else none
  | _ => none

/-- One attempted match of a whitespace run, collapsed to a single space. -/
def tryWsRun : List Char → Option (List Char × List Char)
  | c :: cs => if jsWs c then some ([' '], cs.dropWhile jsWs) else none
  | [] => none

/-- Fuel-driven global replace scan. Every matcher used below consumes at
least one character on success, so fuel equal to the input length is always
sufficient and the fuel-exhausted equation is never reached on those inputs. -/
def replaceScan (tryM : List Char → Option (List Char × List Char)) :
    Nat → List Char → List Char
  | _, [] => []
  | 0, s => s
  | fuel + 1, c :: cs =>
    match tryM (c :: cs) with
    | some (out, rest) => out ++ replaceScan tryM fuel rest
    | none => c :: replaceScan tryM fuel cs

/-- Run a global replace over a whole character list. -/
def runReplace (tryM : List Char → Option (List Char × List Char))
    (s : List Char) : List Char :=
  replaceScan tryM s.length s

/-- Side conditions of the underscore-emphasis pattern on the inner text w
and the rest r of the input: w is non-empty, its first and last characters
are not whitespace, and the closing underscore is followed by whitespace or
the end of the input (the lookahead, not consumed so r keeps it). -/
def emphOk (w r : List Char) : Bool :=
  decide (w ≠ []) && !jsWs (w.headD ' ') && !jsWs (w.getLastD ' ') &&
    (decide (r = []) || jsWs (r.headD ' '))

/-- One attempted match of the boundary-sensitive underscore-emphasis
pattern, assuming the lookbehind (start of string or whitespace) already
holds at the current position. The inner text extends to the next underscore
(so it cannot contain one) and must satisfy emphOk. -/
def tryEmph : List Char → Option (List Char × List Char)
  | '_' :: t =>
    (splitUntil '_' t).bind fun p => if emphOk p.1 p.2 then some (p.1, p.2) else none
  | _ => none

/-- Scanner for the underscore-emphasis pass; the boolean records whether the
previous character of the original input satisfies the lookbehind (start of
string or whitespace). After a successful match the previous character is the
closing underscore, which never satisfies the lookbehind. -/
def emphScan : Nat → Bool → List Char → List Char
  | _, _, [] => []
  | 0, _, s => s
  | fuel + 1, boundary, c :: cs =>
    if boundary then
      match tryEmph (c :: cs) with
      | some (out, rest) => out ++ emphScan fuel false rest
      | none => c :: emphScan fuel (jsWs c) cs
    else c :: emphScan fuel (jsWs c) cs

/-- Underscore-emphasis pass of stripInlineMarkdown. -/
def underscorePass (s : List Char) : List Char :=
  emphScan s.length true s

/-- Model of stripInlineMarkdown from src/src/headingExtractor.ts: the nine
regex replaces applied in source order, then trim. -/
def stripInlineMarkdown (text : String) : String :=
  let l1 := runReplace tryImage text.data
  let l2 := runReplace tryLink l1
  let l3 := runReplace (tryDouble '*') l2
  let l4 := runReplace (tryDouble '_') l3
  let l5 := runReplace (trySingle '*') l4
  let l6 := underscorePass l5
  let l7 := runReplace (trySingle '\x60') l6
  let l8 := runReplace tryEsc l7
  let l9 := runReplace tryWsRun l8
  ⟨trimList l9⟩

example : stripInlineMarkdown "This is _italic_ text with snake_case" =
    "This is italic text with snake_case" := by decide

example : stripInlineMarkdown "**bold** and *italic* and `code`" =
    "bold and italic and code" := by decide

example : stripInlineMarkdown "[Link Text](https://example.com)" = "Link Text" := by decide

example : stripInlineMarkdown "![Alt Text](image.png)" = "Alt Text" := by decide

example : stripInlineMarkdown "snake_case_var" = "snake_case_var" := by decide

/-- Count of equal leading characters. -/
def countLeading (d : Char) : List Char → Nat
  | c :: cs => if c = d then countLeading d cs + 1 else 0
  | [] => 0

/-- Model of the leading-marker strip of an ATX heading: one to six leading
hash characters followed by spaces and tabs are removed; with no leading
hash the string is unchanged. -/
def stripAtxLeading (s : List Char) : List Char :=
  let k := min (countLeading '#' s) 6
  if k = 0 then s
  else (s.drop k).dropWhile fun c => c = ' ' || c = '\t'

/-- Model of the trailing strip of an ATX heading: the longest suffix made of
spaces/tabs, then hashes, then whitespace is removed. -/
def stripAtxTrailing (s : List Char) : List Char :=
  let r := s.reverse
  let r1 := r.dropWhile jsWs
  let r2 := r1.dropWhile (· = '#')
  let r3 := r2.dropWhile fun c => c = ' ' || c = '\t'
  r3.reverse

/-- Node names the extractor pattern-matches on. The Lezer parser reports
heading nodes as the strings ATXHeading1..ATXHeading6 and SetextHeading1..2;
the level numeral embedded in the name is carried here as a field. -/
inductive MarkName where
  | atx (level : Nat)
  | setext (level : Nat)
  | other
deriving Repr, DecidableEq

/-- Model of parseHeadingLevel: ATX names yield their numeral, Setext names
only levels one and two, and every other node name yields no level. -/
def parseHeadingLevel : MarkName → Option Nat
  | .atx n => some n
  | .setext n => if n = 1 || n = 2 then some n else none
  | .other => none

/-- Model of normalizeHeadingText: ATX headings lose their marker prefix and
trailing marker run before inline stripping; Setext headings keep only their
first line; anything else is trimmed and stripped. -/
def normalizeHeadingText (name : MarkName) (raw : String) : String :=
  match name with
  | .atx _ => stripInlineMarkdown ⟨trimList (stripAtxTrailing (stripAtxLeading raw.data))⟩
  | .setext _ => stripInlineMarkdown ⟨trimList (raw.data.takeWhile (· ≠ '\n'))⟩
  | .other => stripInlineMarkdown ⟨trimList raw.data⟩

/-- Modelled external dependency: the uslug slugifier required by
headingExtractor.ts (ASCII behavior). Letters and digits are kept lowercased,
hyphen, underscore and tilde are kept, whitespace is kept as spacing, every
other character is dropped; the result is trimmed and whitespace runs become
single hyphens. -/
def uslugKeep (c : Char) : Option Char :=
  if c.isAlphanum then some c.toLower
  else if c = '-' || c = '_' || c = '~' then some c
  else if jsWs c then some ' '
  else none

/-- One attempted match of a space run, replaced by a single hyphen. -/
def trySpaceRun : List Char → Option (List Char × List Char)
  | c :: cs => if c = ' ' then some (['-'], cs.dropWhile (· = ' ')) else none
  | [] => none

/-- Modelled external dependency: uslug itself (see uslugKeep). -/
def uslug (s : String) : String :=
  let kept := s.data.filterMap uslugKeep
  let t := ((kept.dropWhile (· = ' ')).reverse.dropWhile (· = ' ')).reverse
  ⟨runReplace trySpaceRun t⟩

example : uslug "Introduction" = "introduction" := by decide
example : uslug "Intro 2" = "intro-2" := by decide
example : uslug "Hello World!" = "hello-world" := by decide
example : uslug ":white_check_mark: Features" = "white_check_mark-features" := by decide
example : uslug "Test: Example" = "test-example" := by decide
example : uslug "!!!" = "" := by decide

/-- Per-extraction anchor deduplication state: the count map of
createUniqueAnchor, modelled as a function from base slug to the count
stored so far (none when the base slug has never been seen). -/
abbrev AnchorCounts := String → Option Nat

/-- Count map at the start of an extraction pass. -/
def emptyCounts : AnchorCounts := fun _ => none

/-- Base slug chosen by createUniqueAnchor: the uslug of the text, or the
caller-supplied fallback when the slug is empty. -/
def anchorBaseOf (text fallback : String) : String :=
  if uslug text = "" then fallback else uslug text

/-- Model of createUniqueAnchor from src/src/headingExtractor.ts: the first
occurrence of a base slug returns it and stores count one; a repeat
occurrence increments the stored count and returns the base with the new
count appended after a hyphen. -/
def createUniqueAnchor (text fallback : String) (counts : AnchorCounts) :
    String × AnchorCounts :=
  let anchorBase := anchorBaseOf text fallback
  match counts anchorBase with
  | none => (anchorBase, fun k => if k = anchorBase then some 1 else counts k)
  | some c =>
    (anchorBase ++ "-" ++ Nat.repr (c + 1),
      fun k => if k = anchorBase then some (c + 1) else counts k)

/-- Heading record produced by the extractor (src/src/types.ts HeadingItem).
The source fields from and to are named fromPos and toPos because from is a
reserved word in Lean. -/
structure HeadingItem where
  id : String
  text : String
  level : Nat
  fromPos : Nat
  toPos : Nat
  line : Nat
  anchor : String
deriving Repr, DecidableEq

/-- One node of the parse tree as seen by tree.iterate, reduced to the data
the extractor reads: its type name and its character range. -/
structure HNode where
  name : MarkName
  fromPos : Nat
  toPos : Nat
deriving Repr, DecidableEq

/-- Zero-based line of a character offset: doc.lineAt(from).number - 1
equals the number of newline characters before the offset. -/
def lineOfPos (content : String) (pos : Nat) : Nat :=
  ((content.data.take pos).filter (· = '\n')).length

/-- Body of the tree.iterate callback of extractHeadings, folded over the
visited nodes in order with the shared anchor count map threaded through. -/
def extractLoop (content : String) : List HNode → AnchorCounts → List HeadingItem
  | [], _ => []
  | n :: rest, counts =>
    match parseHeadingLevel n.name with
    | none => extractLoop content rest counts
    | some level =>
      if normalizeHeadingText n.name (jsSlice content n.fromPos n.toPos) = "" then
        extractLoop content rest counts
      else
        { id := "heading-" ++ Nat.repr n.fromPos
          text := normalizeHeadingText n.name (jsSlice content n.fromPos n.toPos)
          level := level
          fromPos := n.fromPos
          toPos := n.toPos
          line := lineOfPos content n.fromPos
          anchor := (createUniqueAnchor
            (normalizeHeadingText n.name (jsSlice content n.fromPos n.toPos))
            ("heading-" ++ Nat.repr n.fromPos) counts).1 } ::
          extractLoop content rest
            (createUniqueAnchor
              (normalizeHeadingText n.name (jsSlice content n.fromPos n.toPos))
              ("heading-" ++ Nat.repr n.fromPos) counts).2

/-- Model of extractHeadings. The Lezer parse of the document is an external
capability and is passed in as a function; the try/catch of the source is
modelled by the Except result: any failure inside the try block yields the
empty heading list (after logging, which has no observable state here). -/
def extractHeadings (parse : String → Except String (List HNode))
    (content : String) : List HeadingItem :=
  match parse content with
  | .error _ => []
  | .ok nodes => extractLoop content nodes emptyCounts

/-- Document of the duplicate-anchor examples. -/
def introDoc : String := "# Introduction\n## Introduction\n### Introduction"

/-- Parse-tree nodes of introDoc as the Lezer markdown parser reports them. -/
def introParse : String → Except String (List HNode) :=
  fun _ => .ok [⟨.atx 1, 0, 14⟩, ⟨.atx 2, 15, 30⟩, ⟨.atx 3, 31, 47⟩]

example : (extractHeadings introParse introDoc).map (·.anchor) =
    ["introduction", "introduction-2", "introduction-3"] := by decide

/-- Document whose third heading slugifies to the deduplicated anchor of the
second: the classic slugger collision. -/
def collideDoc : String := "# Intro\n# Intro\n# Intro 2"

/-- Parse-tree nodes of collideDoc. -/
def collideParse : String → Except String (List HNode) :=
  fun _ => .ok [⟨.atx 1, 0, 7⟩, ⟨.atx 1, 8, 15⟩, ⟨.atx 1, 16, 25⟩]

example : (extractHeadings collideParse collideDoc).map (·.anchor) =
    ["intro", "intro-2", "intro-2"] := by decide

/-- Lowercasing of a character list, modelling String.prototype.toLowerCase
on the ASCII inputs of interest. -/
def lowerList (s : List Char) : List Char :=
  s.map Char.toLower

/-- Boolean test that the first list is an initial segment of the second. -/
def startsSeq : List Char → List Char → Bool
  | [], _ => true
  | _ :: _, [] => false
  | a :: as, b :: bs => a = b && startsSeq as bs

/-- Model of String.prototype.includes: the needle occurs contiguously in the
haystack (every string includes the empty string). -/
def hasSub (hay needle : List Char) : Bool :=
  startsSeq needle hay ||
    match hay with
    | [] => false
    | _ :: t => hasSub t needle

/-- Mutable fields of HeadingPanel (src/src/contentScripts/ui/headingPanel.ts)
that the filtering and selection logic reads and writes: the working heading
list, the derived filtered list, the selected heading id (null modelled as
none) and the text of the filter input element. -/
structure PanelModel where
  headings : List HeadingItem
  filtered : List HeadingItem
  selectedHeadingId : Option String
  input : String
deriving Repr, DecidableEq

/-- First half of HeadingPanel.applyFilter: the filtered list recomputed
from the working list and the filter text (trimmed, lowercased,
case-insensitive substring match on the heading text; an empty query keeps
every heading). -/
def filterHeadings (headings : List HeadingItem) (filterText : String) : List HeadingItem :=
  if (lowerList (trimList filterText.data)).isEmpty then headings
  else headings.filter fun h => hasSub (lowerList h.text.data) (lowerList (trimList filterText.data))

/-- Second half of HeadingPanel.applyFilter: the selection repair. An empty
filtered list clears the selection; a missing selection or one whose id no
longer occurs in the filtered list falls back to the first filtered item. -/
def repairSelection (filtered : List HeadingItem) (sel : Option String) : Option String :=
  match filtered with
  | [] => none
  | h0 :: _ =>
    match sel with
    | none => some h0.id
    | some s => if filtered.any (fun h => h.id = s) then some s else some h0.id

/-- Model of HeadingPanel.applyFilter: recomputes filtered, then repairs the
selection. -/
def applyFilter (st : PanelModel) (filterText : String) : PanelModel :=
  { st with
    filtered := filterHeadings st.headings filterText
    selectedHeadingId :=
      repairSelection (filterHeadings st.headings filterText) st.selectedHeadingId }

/-- Model of HeadingPanel.setHeadings: replaces the working list, then
applies the filter (the preview notification has no state modelled here). -/
def setHeadingsP (st : PanelModel) (headings : List HeadingItem)
    (filterText : String) : PanelModel :=
  applyFilter { st with headings := headings } filterText

/-- Model of HeadingPanel.update: keeps or clears the filter text, overrides
the selection only when an explicit id is supplied (null keeps the previous
one), then delegates to setHeadings. -/
def updateP (st : PanelModel) (headings : List HeadingItem)
    (selectedId : Option String) (preserveFilter : Bool) : PanelModel :=
  let filterText := if preserveFilter then st.input else ""
  let st1 := { st with input := filterText }
  let st2 :=
    { st1 with
      selectedHeadingId :=
        match selectedId with
        | some s => some s
        | none => st.selectedHeadingId }
  setHeadingsP st2 headings filterText

/-- Index of the current selection in the filtered list as
HeadingPanel.moveSelection computes it with findIndex: minus one when there
is no selection or its id occurs in no filtered item. -/
def currentIndexOf (filtered : List HeadingItem) (sel : Option String) : Int :=
  match sel with
  | none => -1
  | some s =>
    match filtered.findIdx? (fun h => h.id = s) with
    | some i => (i : Int)
    | none => -1

/-- Next index of HeadingPanel.moveSelection: the wraparound expression when
the current index is non-negative, zero otherwise. JavaScript number
arithmetic is modelled on Int; the % operator of JavaScript is the
truncating remainder tmod. -/
def nextIndexOf (filtered : List HeadingItem) (sel : Option String) (delta : Int) : Int :=
  if 0 ≤ currentIndexOf filtered sel then
    (currentIndexOf filtered sel + delta + filtered.length).tmod filtered.length
  else 0

/-- Model of HeadingPanel.moveSelection. Reading this.filtered at an
out-of-range index followed by .id would throw a TypeError in the source,
modelled here as the none result. -/
def moveSelection (st : PanelModel) (delta : Int) : Option PanelModel :=
  match st.filtered with
  | [] => some { st with selectedHeadingId := none }
  | _ :: _ =>
    if 0 ≤ nextIndexOf st.filtered st.selectedHeadingId delta then
      match st.filtered.get? (nextIndexOf st.filtered st.selectedHeadingId delta).toNat with
      | some h => some { st with selectedHeadingId := some h.id }
      | none => none
    else none

/-- Scroll verification constants from the content script. -/
def SCROLL_VERIFY_TOLERANCE_PX : ℚ := 12

/-- Stricter tolerance above the viewport top. -/
def SCROLL_VERIFY_NEGATIVE_TOLERANCE_PX : ℚ := 1.5

/-- Maximum verification attempts per session. -/
def SCROLL_VERIFY_MAX_ATTEMPTS : Nat := 2

/-- Decision of the geometry branch of the verifier write phase: pixel
offsets are modelled as rationals (the comparisons of the source on these
magnitudes are exact). -/
def needsScroll (offsetFromViewportTop : ℚ) : Bool :=
  if offsetFromViewportTop < 0 then
    |offsetFromViewportTop| > SCROLL_VERIFY_NEGATIVE_TOLERANCE_PX
  else offsetFromViewportTop > SCROLL_VERIFY_TOLERANCE_PX

/-- Outcome of one scheduled measurement round trip of the verifier, as the
write phase observes it: the read phase can find the live selection already
moved away from the target (stale at read, the read callback returns null);
the measurement can reach the write phase after the selection moved (stale at
write); geometry can be unavailable (the retry status); or geometry is
available with a block-top offset. -/
inductive MeasureOutcome where
  | staleAtRead
  | staleAtWrite
  | retryMeasure
  | geom (blockTopOffset : ℚ)
deriving Repr, DecidableEq

/-- Outcomes in which the live selection no longer matches the target. -/
def staleOutcome : MeasureOutcome → Prop
  | .staleAtRead => True
  | .staleAtWrite => True
  | _ => False

/-- Attempt numbers issued by one verification session of
createScrollVerifier, given the measurement outcome of each attempt. The
verify closure returns immediately at or beyond the attempt budget; a stale
measurement ends the session; the retry branch reissues the scroll and
recurses unless the budget is exhausted; the geometry branch recurses while
budget remains whether or not a corrective scroll was needed. -/
def verifyTrace (env : Nat → MeasureOutcome) (attempt : Nat) : List Nat :=
  if SCROLL_VERIFY_MAX_ATTEMPTS ≤ attempt then []
  else
    attempt ::
      match env attempt with
      | .staleAtRead => []
      | .staleAtWrite => []
      | .retryMeasure =>
        if SCROLL_VERIFY_MAX_ATTEMPTS ≤ attempt + 1 then []
        else verifyTrace env (attempt + 1)
      | .geom _ =>
        if attempt + 1 < SCROLL_VERIFY_MAX_ATTEMPTS then verifyTrace env (attempt + 1)
        else []
termination_by SCROLL_VERIFY_MAX_ATTEMPTS - attempt
decreasing_by
  all_goals simp only [SCROLL_VERIFY_MAX_ATTEMPTS] at *; omega

/-- Replace every occurrence of a character by a replacement list, modelling
one single-character global regex replace of escapeLinkText. -/
def replaceChar (target : Char) (out : List Char) : List Char → List Char
  | [] => []
  | c :: cs => (if c = target then out else [c]) ++ replaceChar target out cs

/-- Model of escapeLinkText from src/src/linkFormatting.ts: six global
replaces in source order (backslash first, then ampersand, angle brackets
and square brackets, each prefixed with a backslash). -/
def escapeLinkText (text : String) : String :=
  ⟨replaceChar ']' ['\\', ']']
    (replaceChar '[' ['\\', '[']
      (replaceChar '>' ['\\', '>']
        (replaceChar '<' ['\\', '<']
          (replaceChar '&' ['\\', '&']
            (replaceChar '\\' ['\\', '\\'] text.data)))))⟩

/-- Model of formatHeadingLink from src/src/linkFormatting.ts. -/
def formatHeadingLink (headingText noteTitle noteId headingAnchor : String) : String :=
  "[" ++ (escapeLinkText headingText ++ " @ " ++ escapeLinkText noteTitle) ++ "](" ++
    (":/" ++ noteId ++ "#" ++ headingAnchor) ++ ")"

example : formatHeadingLink "Usage" "Guide" "abc123" "usage" =
    "[Usage @ Guide](:/abc123#usage)" := by decide
example : escapeLinkText "Hello [World]" = "Hello \\[World\\]" := by decide
example : escapeLinkText "Path\\to\\file" = "Path\\\\to\\\\file" := by decide
example : escapeLinkText "&" = "\\&" := by decide

/-- Decimal digit list of a natural number (most significant first), the
structural counterpart of Nat.toDigitsCore at base ten. -/
def natDigitsList (n : Nat) : List Char :=
  if _ : n < 10 then [Nat.digitChar n]
  else natDigitsList (n / 10) ++ [Nat.digitChar (n % 10)]
termination_by n
decreasing_by exact Nat.div_lt_self (by omega) (by omega)

theorem toDigitsCore_eq_natDigitsList :
    ∀ (fuel n : Nat) (ds : List Char), n < fuel →
      Nat.toDigitsCore 10 fuel n ds = natDigitsList n ++ ds := by
  intro fuel
  induction fuel with
  | zero => intro n ds h; omega
  | succ f ih =>
    intro n ds h
    rw [Nat.toDigitsCore]
    by_cases h10 : n / 10 = 0
    · have hn : n < 10 := by omega
      rw [if_pos h10, natDigitsList, dif_pos hn, Nat.mod_eq_of_lt hn]
      simp
    · have hn : ¬ n < 10 := by
        intro hlt
        exact h10 (Nat.div_eq_of_lt hlt)
      have hdiv : n / 10 < f := by
        have h1 : n / 10 < n := Nat.div_lt_self (by omega) (by omega)
        omega
      rw [if_neg h10, ih (n / 10) _ hdiv]
      conv_rhs => rw [natDigitsList, dif_neg hn]
      simp

theorem natRepr_eq (n : Nat) : Nat.repr n = ⟨natDigitsList n⟩ := by
  show (Nat.toDigits 10 n).asString = _
  rw [Nat.toDigits, toDigitsCore_eq_natDigitsList (n + 1) n [] (by omega)]
  simp [List.asString]

/-- Value of a decimal digit list, used to invert natDigitsList. -/
def digitsVal (l : List Char) : Nat :=
  l.foldl (fun a c => 10 * a + (c.toNat - 48)) 0

theorem digitsVal_append (l : List Char) (c : Char) :
    digitsVal (l ++ [c]) = 10 * digitsVal l + (c.toNat - 48) := by
  simp [digitsVal, List.foldl_append]

theorem digitChar_toNat (d : Nat) (h : d < 10) : (Nat.digitChar d).toNat - 48 = d := by
  interval_cases d <;> rfl

theorem digitsVal_natDigitsList (n : Nat) : digitsVal (natDigitsList n) = n := by
  induction n using Nat.strong_induction_on with
  | _ n ih =>
    by_cases h : n < 10
    · rw [natDigitsList, dif_pos h]
      simpa [digitsVal] using digitChar_toNat n h
    · rw [natDigitsList, dif_neg h, digitsVal_append,
        ih (n / 10) (Nat.div_lt_self (by omega) (by omega)),
        digitChar_toNat _ (Nat.mod_lt _ (by omega))]
      omega

theorem natRepr_injective : Function.Injective Nat.repr := by
  intro a b h
  rw [natRepr_eq, natRepr_eq] at h
  have hl : natDigitsList a = natDigitsList b := congrArg String.data h
  have := congrArg digitsVal hl
  rwa [digitsVal_natDigitsList, digitsVal_natDigitsList] at this

theorem natDigitsList_ne_nil (n : Nat) : natDigitsList n ≠ [] := by
  by_cases h : n < 10
  · rw [natDigitsList, dif_pos h]; simp
  · rw [natDigitsList, dif_neg h]; simp

theorem natRepr_length_pos (n : Nat) : 0 < (Nat.repr n).length := by
  rw [natRepr_eq]
  show 0 < (natDigitsList n).length
  exact List.length_pos.mpr (natDigitsList_ne_nil n)

theorem strAppend_cancel_left {s a b : String} (h : s ++ a = s ++ b) : a = b := by
  have hd : s.data ++ a.data = s.data ++ b.data := by
    have h1 := congrArg String.data h
    simpa [String.data_append] using h1
  cases a; cases b
  exact congrArg String.mk (List.append_cancel_left hd)

/-- Stable id of a heading at a given start offset. -/
def mkHeadingId (pos : Nat) : String :=
  "heading-" ++ Nat.repr pos

theorem mkHeadingId_injective : Function.Injective mkHeadingId := by
  intro a b h
  exact natRepr_injective (strAppend_cancel_left h)

theorem normalizeHeadingText_empty (name : MarkName) : normalizeHeadingText name "" = "" := by
  cases name <;> rfl

theorem jsSlice_eq_empty {s : String} {a b : Nat} (h : b ≤ a) : jsSlice s a b = "" := by
  show String.mk _ = _
  rw [List.drop_eq_nil_iff.mpr (Nat.le_trans (List.length_take_le _ _) h)]

/-- Start offsets of the parse-tree nodes that carry a heading level, in
visit order. The Lezer parser visits heading nodes at strictly increasing
start offsets (headings never nest inside one another), which the theorems
below take as a hypothesis. -/
def headingFroms (nodes : List HNode) : List Nat :=
  nodes.filterMap fun n => if (parseHeadingLevel n.name).isSome then some n.fromPos else none

theorem extractLoop_item_shape (content : String) (nodes : List HNode) :
    ∀ (counts : AnchorCounts) (item : HeadingItem),
      item ∈ extractLoop content nodes counts →
      item.id = mkHeadingId item.fromPos ∧ item.fromPos < item.toPos := by
  induction nodes with
  | nil => intro counts item h; simp [extractLoop] at h
  | cons n rest ih =>
    intro counts item h
    rw [extractLoop] at h
    cases hl : parseHeadingLevel n.name with
    | none => simp only [hl] at h; exact ih _ _ h
    | some level =>
      simp only [hl] at h
      by_cases ht : normalizeHeadingText n.name (jsSlice content n.fromPos n.toPos) = ""
      · rw [if_pos ht] at h
        exact ih _ _ h
      · rw [if_neg ht] at h
        rcases List.mem_cons.mp h with rfl | h2
        · refine ⟨rfl, ?_⟩
          show n.fromPos < n.toPos
          by_contra hle
          exact ht (by
            rw [jsSlice_eq_empty (by omega)]
            exact normalizeHeadingText_empty n.name)
        · exact ih _ _ h2

theorem extractLoop_froms_sublist (content : String) (nodes : List HNode) :
    ∀ counts : AnchorCounts,
      ((extractLoop content nodes counts).map (·.fromPos)).Sublist (headingFroms nodes) := by
  induction nodes with
  | nil => intro counts; simp [extractLoop, headingFroms]
  | cons n rest ih =>
    intro counts
    rw [extractLoop]
    cases hl : parseHeadingLevel n.name with
    | none =>
      simp only [hl, headingFroms, List.filterMap_cons, Option.isSome_none,
        Bool.false_eq_true, if_false]
      exact ih counts
    | some level =>
      simp only [hl, headingFroms, List.filterMap_cons, Option.isSome_some, if_true]
      by_cases ht : normalizeHeadingText n.name (jsSlice content n.fromPos n.toPos) = ""
      · rw [if_pos ht]
        exact List.Sublist.cons n.fromPos (ih counts)
      · rw [if_neg ht, List.map_cons]
        exact List.Sublist.cons₂ n.fromPos (ih _)

/-- Sequential anchor allocation over a list of (text, fallback) pairs with
the shared count map threaded through, the allocation order of one
extraction pass. -/
def allocAnchors : List (String × String) → AnchorCounts → List String
  | [], _ => []
  | p :: rest, counts =>
    (createUniqueAnchor p.1 p.2 counts).1 ::
      allocAnchors rest (createUniqueAnchor p.1 p.2 counts).2

/-- Anchor produced for the k-th occurrence (one-based) of a base slug. -/
def anchorNameFor (b : String) (k : Nat) : String :=
  if k = 1 then b else b ++ "-" ++ Nat.repr k

/-- The count map stores exactly the number of occurrences seen so far of
every base slug (none when that number is zero). -/
def countsRel (g : String → Nat) (counts : AnchorCounts) : Prop :=
  ∀ b, counts b = if g b = 0 then none else some (g b)

theorem countsRel_empty : countsRel (fun _ => 0) emptyCounts := by
  intro b; rfl

theorem createUniqueAnchor_of_none {counts : AnchorCounts} {t f : String}
    (h : counts (anchorBaseOf t f) = none) :
    createUniqueAnchor t f counts =
      (anchorBaseOf t f, fun k => if k = anchorBaseOf t f then some 1 else counts k) := by
  rw [createUniqueAnchor, h]

theorem createUniqueAnchor_of_some {counts : AnchorCounts} {t f : String} {c : Nat}
    (h : counts (anchorBaseOf t f) = some c) :
    createUniqueAnchor t f counts =
      (anchorBaseOf t f ++ "-" ++ Nat.repr (c + 1),
        fun k => if k = anchorBaseOf t f then some (c + 1) else counts k) := by
  rw [createUniqueAnchor, h]

theorem countsRel_step (g : String → Nat) (counts : AnchorCounts)
    (hrel : countsRel g counts) (t f : String) :
    countsRel (fun k => if k = anchorBaseOf t f then g k + 1 else g k)
      (createUniqueAnchor t f counts).2 := by
  intro b
  have hbase := hrel (anchorBaseOf t f)
  by_cases hgz : g (anchorBaseOf t f) = 0
  · rw [if_pos hgz] at hbase
    by_cases hb : b = anchorBaseOf t f
    · simp [createUniqueAnchor_of_none hbase, hb, hgz]
    · simp [createUniqueAnchor_of_none hbase, hb, hrel b]
  · rw [if_neg hgz] at hbase
    by_cases hb : b = anchorBaseOf t f
    · simp [createUniqueAnchor_of_some hbase, hb, hgz]
    · simp [createUniqueAnchor_of_some hbase, hb, hrel b]

theorem createUniqueAnchor_fst (g : String → Nat) (counts : AnchorCounts)
    (hrel : countsRel g counts) (t f : String) :
    (createUniqueAnchor t f counts).1 =
      anchorNameFor (anchorBaseOf t f) (g (anchorBaseOf t f) + 1) := by
  have hbase := hrel (anchorBaseOf t f)
  by_cases hgz : g (anchorBaseOf t f) = 0
  · rw [if_pos hgz] at hbase
    rw [createUniqueAnchor_of_none hbase, anchorNameFor, hgz]
    simp
  · rw [if_neg hgz] at hbase
    rw [createUniqueAnchor_of_some hbase, anchorNameFor, if_neg (by omega)]

theorem allocAnchors_get? :
    ∀ (items : List (String × String)) (counts : AnchorCounts) (g : String → Nat),
      countsRel g counts →
      ∀ (i : Nat) (p : String × String), items.get? i = some p →
        (allocAnchors items counts).get? i =
          some (anchorNameFor (anchorBaseOf p.1 p.2)
            (g (anchorBaseOf p.1 p.2) + 1 +
              (items.take i).countP
                fun q => decide (anchorBaseOf q.1 q.2 = anchorBaseOf p.1 p.2))) := by
  intro items
  induction items with
  | nil => intro counts g hrel i p hp; simp at hp
  | cons q rest ih =>
    intro counts g hrel i p hp
    rw [allocAnchors]
    cases i with
    | zero =>
      have hq : q = p := by simpa using hp
      subst hq
      simp only [List.get?_cons_zero, List.take_zero, List.countP_nil, Nat.add_zero,
        Option.some.injEq]
      exact createUniqueAnchor_fst g counts hrel q.1 q.2
    | succ j =>
      have hp2 : rest.get? j = some p := by simpa using hp
      have hstep := countsRel_step g counts hrel q.1 q.2
      have hrec := ih _ _ hstep j p hp2
      rw [List.get?_cons_succ, hrec]
      congr 2
      rw [List.take_succ_cons, List.countP_cons]
      rcases eq_or_ne (anchorBaseOf p.1 p.2) (anchorBaseOf q.1 q.2) with hb | hb
      · rw [if_pos hb, if_pos (decide_eq_true hb.symm)]
        omega
      · rw [if_neg hb, if_neg (by simpa using Ne.symm hb)]
        omega

/-- Text and fallback pair that extractHeadings feeds to createUniqueAnchor
for a given emitted item. -/
def itemPair (it : HeadingItem) : String × String :=
  (it.text, mkHeadingId it.fromPos)

/-- Base slug of an emitted item. -/
def baseOfItem (it : HeadingItem) : String :=
  anchorBaseOf it.text (mkHeadingId it.fromPos)

theorem extractLoop_anchors_eq (content : String) (nodes : List HNode) :
    ∀ counts : AnchorCounts,
      (extractLoop content nodes counts).map (·.anchor) =
        allocAnchors ((extractLoop content nodes counts).map itemPair) counts := by
  induction nodes with
  | nil => intro counts; simp [extractLoop, allocAnchors]
  | cons n rest ih =>
    intro counts
    rw [extractLoop]
    cases hl : parseHeadingLevel n.name with
    | none => simp only [hl]; exact ih counts
    | some level =>
      simp only [hl]
      by_cases ht : normalizeHeadingText n.name (jsSlice content n.fromPos n.toPos) = ""
      · rw [if_pos ht]; exact ih counts
      · rw [if_neg ht]
        simp only [List.map_cons, allocAnchors]
        exact congrArg (List.cons _) (ih _)

theorem anchorNameFor_inj (b : String) {k₁ k₂ : Nat} (h : k₁ ≠ k₂) :
    anchorNameFor b k₁ ≠ anchorNameFor b k₂ := by
  intro he
  rw [anchorNameFor, anchorNameFor] at he
  by_cases h1 : k₁ = 1 <;> by_cases h2 : k₂ = 1
  · exact h (h1.trans h2.symm)
  · rw [if_pos h1, if_neg h2] at he
    have hlen := congrArg (fun s : String => s.data.length) he
    simp only [String.data_append, List.length_append] at hlen
    have hr : (Nat.repr k₂).data ≠ [] := by
      rw [natRepr_eq]; exact natDigitsList_ne_nil k₂
    have hrp : 0 < (Nat.repr k₂).data.length := List.length_pos.mpr hr
    have hdash : ("-" : String).data.length = 1 := rfl
    omega
  · rw [if_neg h1, if_pos h2] at he
    have hlen := congrArg (fun s : String => s.data.length) he
    simp only [String.data_append, List.length_append] at hlen
    have hr : (Nat.repr k₁).data ≠ [] := by
      rw [natRepr_eq]; exact natDigitsList_ne_nil k₁
    have hrp : 0 < (Nat.repr k₁).data.length := List.length_pos.mpr hr
    have hdash : ("-" : String).data.length = 1 := rfl
    omega
  · rw [if_neg h1, if_neg h2] at he
    exact h (natRepr_injective (strAppend_cancel_left he))

theorem countP_take_mono {α : Type} (l : List α) (p : α → Bool) {m n : Nat} (h : m ≤ n) :
    (l.take m).countP p ≤ (l.take n).countP p := by
  have heq : l.take m = (l.take n).take m := by
    rw [List.take_take, Nat.min_eq_left h]
  rw [heq]
  exact List.Sublist.countP_le p (List.take_sublist m (l.take n))

theorem extractLoop_anchor_formula (content : String) (nodes : List HNode)
    (i : Nat) (a : HeadingItem)
    (ha : (extractLoop content nodes emptyCounts).get? i = some a) :
    a.anchor = anchorNameFor (baseOfItem a)
      (1 + ((extractLoop content nodes emptyCounts).take i).countP
        fun x => decide (baseOfItem x = baseOfItem a)) := by
  have hpair : ((extractLoop content nodes emptyCounts).map itemPair).get? i
      = some (itemPair a) := by
    rw [List.get?_map, ha]; rfl
  have halloc := allocAnchors_get? _ emptyCounts (fun _ => 0) countsRel_empty i _ hpair
  have hanch : ((extractLoop content nodes emptyCounts).map (·.anchor)).get? i
      = some a.anchor := by
    rw [List.get?_map, ha]; rfl
  rw [extractLoop_anchors_eq content nodes emptyCounts, halloc] at hanch
  have hinj := Option.some.inj hanch
  have hcount :
      (((extractLoop content nodes emptyCounts).map itemPair).take i).countP
        (fun q => decide (anchorBaseOf q.1 q.2 = anchorBaseOf (itemPair a).1 (itemPair a).2))
      = ((extractLoop content nodes emptyCounts).take i).countP
        fun x => decide (baseOfItem x = baseOfItem a) := by
    rw [← List.map_take, List.countP_map]
    rfl
  rw [hcount] at hinj
  exact hinj.symm

/-- Well-formedness of one extraction pass under the parser invariant that
heading nodes are visited at strictly increasing start offsets: emitted
ranges are non-degenerate, ids are pairwise distinct, the sequence ascends by
start offset, and items sharing a base slug receive pairwise distinct
anchors. -/
theorem extractHeadings_wellFormed
    (parse : String → Except String (List HNode)) (content : String) (nodes : List HNode)
    (hparse : parse content = Except.ok nodes)
    (horder : (headingFroms nodes).Pairwise (· < ·)) :
    (∀ item ∈ extractHeadings parse content, item.fromPos < item.toPos) ∧
    ((extractHeadings parse content).map (·.fromPos)).Pairwise (· < ·) ∧
    ((extractHeadings parse content).map (·.id)).Pairwise (· ≠ ·) ∧
    ∀ (i j : Nat) (a b : HeadingItem), i < j →
      (extractHeadings parse content).get? i = some a →
      (extractHeadings parse content).get? j = some b →
      baseOfItem a = baseOfItem b →
      a.anchor ≠ b.anchor := by
  have hR : extractHeadings parse content = extractLoop content nodes emptyCounts := by
    rw [extractHeadings, hparse]
  rw [hR]
  refine ⟨?_, ?_, ?_, ?_⟩
  · intro item hmem
    exact (extractLoop_item_shape content nodes emptyCounts item hmem).2
  · exact horder.sublist (extractLoop_froms_sublist content nodes emptyCounts)
  · have hfrom : (extractLoop content nodes emptyCounts).Pairwise
        (fun x y => x.fromPos < y.fromPos) :=
      List.pairwise_map.mp
        (horder.sublist (extractLoop_froms_sublist content nodes emptyCounts))
    rw [List.pairwise_map]
    refine List.Pairwise.imp_of_mem ?_ hfrom
    intro x y hx hy hlt heq
    have hxid := (extractLoop_item_shape content nodes emptyCounts x hx).1
    have hyid := (extractLoop_item_shape content nodes emptyCounts y hy).1
    rw [hxid, hyid] at heq
    have := mkHeadingId_injective heq
    omega
  · intro i j a b hij hga hgb hbase
    have fa := extractLoop_anchor_formula content nodes i a hga
    have fb := extractLoop_anchor_formula content nodes j b hgb
    rw [hbase] at fa
    have hstep : ((extractLoop content nodes emptyCounts).take (i + 1)).countP
        (fun x => decide (baseOfItem x = baseOfItem b)) =
        ((extractLoop content nodes emptyCounts).take i).countP
          (fun x => decide (baseOfItem x = baseOfItem b)) + 1 := by
      rw [List.take_succ, List.countP_append]
      have hgi : (extractLoop content nodes emptyCounts)[i]? = some a := by
        rw [← List.get?_eq_getElem?]; exact hga
      rw [hgi]
      simp [List.countP_cons, hbase]
    have hmono := countP_take_mono (extractLoop content nodes emptyCounts)
      (fun x => decide (baseOfItem x = baseOfItem b)) (show i + 1 ≤ j by omega)
    rw [hstep] at hmono
    rw [fa, fb]
    exact anchorNameFor_inj _ (by omega)

/-- C1 counterexample: on the document "# Intro\n# Intro\n# Intro 2" the
extractor emits anchors intro, intro-2, intro-2 - the deduplication suffix of
the second heading collides with the base slug of the third, so anchors are
not pairwise distinct within one extraction. -/
theorem extractHeadings_anchor_collision :
    (extractHeadings collideParse collideDoc).map (·.anchor) =
      ["intro", "intro-2", "intro-2"] ∧
    ¬ ((extractHeadings collideParse collideDoc).map (·.anchor)).Nodup := by
  constructor
  · decide
  · decide

/-- Parse function that always fails, as the Lezer parser would by throwing. -/
def failParse : String → Except String (List HNode) :=
  fun _ => .error "parse failure"

/-- C2: extractHeadings is a total function of its inputs (it cannot raise in
this model), and on any internal parse failure it returns the empty
sequence. -/
theorem extractHeadings_error_empty
    (parse : String → Except String (List HNode)) (content e : String)
    (h : parse content = Except.error e) :
    extractHeadings parse content = [] := by
  rw [extractHeadings, h]

/-- C2 witness: a concrete failing parse yields the empty sequence. -/
theorem extractHeadings_error_empty_witness :
    extractHeadings failParse "# Title" = [] :=
  extractHeadings_error_empty failParse "# Title" "parse failure" rfl

/-- C3: anchor allocation is purely sequential over one shared count map:
the item at index i whose base slug has k prior occurrences among the items
before it receives the base itself when k = 0 and base-(k+1) otherwise
(anchorNameFor); and the three Introduction headings receive introduction,
introduction-2, introduction-3 in order. -/
theorem createUniqueAnchor_sequential :
    (∀ (items : List (String × String)) (i : Nat) (p : String × String),
        items.get? i = some p →
        (allocAnchors items emptyCounts).get? i =
          some (anchorNameFor (anchorBaseOf p.1 p.2)
            (1 + (items.take i).countP
              fun q => decide (anchorBaseOf q.1 q.2 = anchorBaseOf p.1 p.2)))) ∧
    (extractHeadings introParse introDoc).map (·.anchor) =
      ["introduction", "introduction-2", "introduction-3"] := by
  constructor
  · intro items i p hp
    have h := allocAnchors_get? items emptyCounts (fun _ => 0) countsRel_empty i p hp
    simpa using h
  · decide

/-- C3 witness: the second occurrence of the base slug introduction receives
introduction-2. -/
theorem createUniqueAnchor_sequential_witness :
    (allocAnchors [("Introduction", "fb1"), ("Introduction", "fb2")] emptyCounts).get? 1 =
      some (anchorNameFor (anchorBaseOf "Introduction" "fb2")
        (1 + ([("Introduction", "fb1"), ("Introduction", "fb2")].take 1).countP
          fun q => decide (anchorBaseOf q.1 q.2 = anchorBaseOf "Introduction" "fb2"))) :=
  createUniqueAnchor_sequential.1 [("Introduction", "fb1"), ("Introduction", "fb2")] 1
    ("Introduction", "fb2") rfl

/-- C1 witness: the amended well-formedness instantiated on the concrete
three-heading document. -/
theorem extractHeadings_wellFormed_witness :
    (∀ item ∈ extractHeadings introParse introDoc, item.fromPos < item.toPos) ∧
    ((extractHeadings introParse introDoc).map (·.fromPos)).Pairwise (· < ·) ∧
    ((extractHeadings introParse introDoc).map (·.id)).Pairwise (· ≠ ·) ∧
    ∀ (i j : Nat) (a b : HeadingItem), i < j →
      (extractHeadings introParse introDoc).get? i = some a →
      (extractHeadings introParse introDoc).get? j = some b →
      baseOfItem a = baseOfItem b →
      a.anchor ≠ b.anchor :=
  extractHeadings_wellFormed introParse introDoc
    [⟨.atx 1, 0, 14⟩, ⟨.atx 2, 15, 30⟩, ⟨.atx 3, 31, 47⟩] rfl (by decide)

theorem splitUntil_sound (c : Char) :
    ∀ (l a b : List Char), splitUntil c l = some (a, b) → l = a ++ c :: b ∧ c ∉ a := by
  intro l
  induction l with
  | nil => intro a b h; simp [splitUntil] at h
  | cons x xs ih =>
    intro a b h
    rw [splitUntil] at h
    by_cases hx : x = c
    · rw [if_pos hx] at h
      have ha : a = [] ∧ b = xs := by
        have := Option.some.inj h
        exact ⟨(Prod.mk.inj this.symm).1, (Prod.mk.inj this.symm).2⟩
      rcases ha with ⟨rfl, rfl⟩
      simp [hx]
    · rw [if_neg hx] at h
      cases hsp : splitUntil c xs with
      | none => rw [hsp] at h; simp at h
      | some p =>
        rw [hsp] at h
        simp only [Option.map_some'] at h
        have hp := Option.some.inj h
        have ha : a = x :: p.1 := (Prod.mk.inj hp.symm).1
        have hb : b = p.2 := (Prod.mk.inj hp.symm).2
        subst ha; subst hb
        have := ih p.1 p.2 hsp
        refine ⟨by rw [List.cons_append, this.1], ?_⟩
        intro hmem
        rcases List.mem_cons.mp hmem with hceq | hmem2
        · exact hx hceq.symm
        · exact this.2 hmem2


/-- C4: underscore emphasis is removed only at word boundaries. Soundness of
the matcher: a successful match consumes an opening underscore, an inner text
free of underscores whose first and last characters are not whitespace, and a
closing underscore followed by whitespace or the end of input - so an
underscore internal to a token can never be consumed; the scanner copies
every character verbatim when the lookbehind (start of string or whitespace
before) fails; and concretely the claimed input normalizes as claimed while
embedded underscores and boundary-less pairs survive. -/
theorem stripInlineMarkdown_underscore_boundary :
    (∀ (s w r : List Char), tryEmph s = some (w, r) →
      s = '_' :: (w ++ '_' :: r) ∧ '_' ∉ w ∧
      w ≠ [] ∧ jsWs (w.headD ' ') = false ∧ jsWs (w.getLastD ' ') = false ∧
      (r = [] ∨ jsWs (r.headD ' ') = true)) ∧
    (∀ (fuel : Nat) (c : Char) (cs : List Char),
      emphScan (fuel + 1) false (c :: cs) = c :: emphScan fuel (jsWs c) cs) ∧
    stripInlineMarkdown "This is _italic_ text with snake_case" =
      "This is italic text with snake_case" ∧
    stripInlineMarkdown "snake_case_var" = "snake_case_var" ∧
    stripInlineMarkdown "_Entire heading italic_" = "Entire heading italic" ∧
    stripInlineMarkdown "_x_y" = "_x_y" := by
  refine ⟨?_, ?_, by decide, by decide, by decide, by decide⟩
  · intro s w r h
    rw [tryEmph.eq_def] at h
    split at h
    · rename_i t
      rw [Option.bind_eq_some] at h
      obtain ⟨p, hp, hif⟩ := h
      by_cases hok : emphOk p.1 p.2
      · rw [if_pos hok] at hif
        obtain ⟨hw, hr⟩ := Prod.mk.inj (Option.some.inj hif)
        subst hw; subst hr
        have hsu := splitUntil_sound '_' t p.1 p.2 hp
        simp only [emphOk, Bool.and_eq_true, Bool.or_eq_true, decide_eq_true_eq,
          Bool.not_eq_true'] at hok
        refine ⟨by rw [hsu.1], hsu.2, hok.1.1.1, hok.1.1.2, hok.1.2, ?_⟩
        rcases hok.2 with hre | hws
        · exact Or.inl hre
        · exact Or.inr hws
      · rw [if_neg hok] at hif
        exact absurd hif (by simp)
    · exact absurd h (by simp)
  · intro fuel c cs
    rfl

/-- Selection invariant of the panel state: an empty filtered list carries no
selection; a non-empty filtered list carries the id of one of its members. -/
def SelInv (st : PanelModel) : Prop :=
  (st.filtered = [] → st.selectedHeadingId = none) ∧
  (st.filtered ≠ [] → ∃ h ∈ st.filtered, st.selectedHeadingId = some h.id)

theorem repairSelection_spec (filtered : List HeadingItem) (sel : Option String) :
    (filtered = [] → repairSelection filtered sel = none) ∧
    (filtered ≠ [] → ∃ h ∈ filtered, repairSelection filtered sel = some h.id) := by
  cases hf : filtered with
  | nil => exact ⟨fun _ => rfl, fun hne => absurd rfl hne⟩
  | cons h0 tl =>
    refine ⟨fun he => absurd he (by simp), fun _ => ?_⟩
    cases sel with
    | none => exact ⟨h0, List.mem_cons_self h0 tl, rfl⟩
    | some s =>
      show ∃ h ∈ h0 :: tl,
        (if (h0 :: tl).any (fun h => h.id = s) then some s else some h0.id) = some h.id
      by_cases hany : (h0 :: tl).any (fun h => h.id = s) = true
      · rw [if_pos hany]
        obtain ⟨h, hmem, hid⟩ := List.any_eq_true.mp hany
        exact ⟨h, hmem, by rw [of_decide_eq_true hid]⟩
      · rw [if_neg hany]
        exact ⟨h0, List.mem_cons_self h0 tl, rfl⟩

theorem applyFilter_selInv (st : PanelModel) (f : String) : SelInv (applyFilter st f) := by
  have hs := repairSelection_spec (filterHeadings st.headings f) st.selectedHeadingId
  exact ⟨fun he => hs.1 he, fun hne => hs.2 hne⟩

/-- C5: with a selection on a member of a non-empty filtered list,
moveSelection(delta) selects the item at index (index + delta + N) mod N
(every delta whose JavaScript index arithmetic stays non-negative, which
holds in particular for delta of -1 and 1); on an empty filtered list it
clears the selection and cannot throw. -/
theorem moveSelection_wraps :
    (∀ (st : PanelModel) (s : String) (i : Nat) (delta : Int),
      st.selectedHeadingId = some s →
      st.filtered.findIdx? (fun h => h.id = s) = some i →
      0 ≤ (i : Int) + delta + st.filtered.length →
      moveSelection st delta =
        some { st with selectedHeadingId :=
          (st.filtered.get? (((i : Int) + delta + (st.filtered.length : Int)) %
            (st.filtered.length : Int)).toNat).map (·.id) }) ∧
    (∀ (st : PanelModel) (delta : Int), st.filtered = [] →
      moveSelection st delta = some { st with selectedHeadingId := none }) := by
  constructor
  · intro st s i delta hsel hidx hdom
    rcases hfl : st.filtered with _ | ⟨x, xs⟩
    · rw [hfl] at hidx; simp at hidx
    · rw [hfl] at hidx hdom
      have hi0 : (0 : Int) ≤ (i : Int) := Int.natCast_nonneg i
      have hL : (0 : Int) < ((x :: xs).length : Int) := by simp
      have hcur : currentIndexOf (x :: xs) st.selectedHeadingId = (i : Int) := by
        simp only [currentIndexOf, hsel, hidx]
      have htm : ((i : Int) + delta + ((x :: xs).length : Int)).tmod ((x :: xs).length : Int) =
          ((i : Int) + delta + ((x :: xs).length : Int)) % ((x :: xs).length : Int) :=
        Int.tmod_eq_emod hdom (le_of_lt hL)
      have hni : nextIndexOf (x :: xs) st.selectedHeadingId delta =
          ((i : Int) + delta + ((x :: xs).length : Int)) % ((x :: xs).length : Int) := by
        rw [nextIndexOf, hcur, if_pos hi0, htm]
      have hnn : (0 : Int) ≤
          ((i : Int) + delta + ((x :: xs).length : Int)) % ((x :: xs).length : Int) :=
        Int.emod_nonneg _ (ne_of_gt hL)
      have hlt : ((i : Int) + delta + ((x :: xs).length : Int)) % ((x :: xs).length : Int) <
          ((x :: xs).length : Int) :=
        Int.emod_lt_of_pos _ hL
      have hbound : (((i : Int) + delta + ((x :: xs).length : Int)) %
          ((x :: xs).length : Int)).toNat < (x :: xs).length := by
        omega
      simp only [moveSelection, hfl, hni]
      rw [if_pos hnn, List.get?_eq_get hbound]
      simp
  · intro st delta hemp
    simp only [moveSelection, hemp]

/-- C10 (implicit): when the filtered list is non-empty but the current
selection matches none of its members, moveSelection selects the first
filtered item for every delta. -/
theorem moveSelection_stale_first :
    ∀ (st : PanelModel) (delta : Int) (x : HeadingItem) (xs : List HeadingItem),
      st.filtered = x :: xs →
      (∀ h ∈ st.filtered, st.selectedHeadingId ≠ some h.id) →
      moveSelection st delta = some { st with selectedHeadingId := some x.id } := by
  intro st delta x xs hfl hstale
  cases hselv : st.selectedHeadingId with
  | none =>
    simp [moveSelection, nextIndexOf, currentIndexOf, hfl, hselv]
  | some s =>
    have hnone : (x :: xs).findIdx? (fun h => h.id = s) = none := by
      rw [List.findIdx?_eq_none_iff]
      intro h hmem
      have hne : h.id ≠ s := by
        intro he
        exact hstale h (hfl ▸ hmem) (by rw [hselv, he])
      simpa using hne
    have hcur : currentIndexOf (x :: xs) (some s) = -1 := by
      simp only [currentIndexOf, hnone]
    have hni : nextIndexOf (x :: xs) (some s) delta = 0 := by
      rw [nextIndexOf, hcur, if_neg (by norm_num)]
    simp [moveSelection, hfl, hselv, hni]

theorem repairSelection_keeps (F : List HeadingItem) (s : String) :
    (F.any (fun h => h.id = s) = true → repairSelection F (some s) = some s) ∧
    (F.any (fun h => h.id = s) = false → repairSelection F (some s) = F.head?.map (·.id)) := by
  cases F with
  | nil => exact ⟨fun h => by simp at h, fun _ => rfl⟩
  | cons h0 tl =>
    constructor
    · intro hany
      show (if (h0 :: tl).any (fun h => h.id = s) then some s else some h0.id) = some s
      rw [if_pos hany]
    · intro hany
      show (if (h0 :: tl).any (fun h => h.id = s) then some s else some h0.id) = _
      rw [if_neg (by simp [hany])]
      rfl

theorem moveSelection_preserves_selInv (st : PanelModel) (delta : Int) (st' : PanelModel)
    (h : moveSelection st delta = some st') : SelInv st' := by
  rcases hfl : st.filtered with _ | ⟨x, xs⟩
  · simp only [moveSelection, hfl] at h
    obtain rfl := Option.some.inj h
    exact ⟨fun _ => rfl, fun hne => absurd rfl hne⟩
  · simp only [moveSelection, hfl] at h
    by_cases hni : (0 : Int) ≤ nextIndexOf (x :: xs) st.selectedHeadingId delta
    · rw [if_pos hni] at h
      cases hget : (x :: xs).get? (nextIndexOf (x :: xs) st.selectedHeadingId delta).toNat with
      | none => rw [hget] at h; exact absurd h (by simp)
      | some h0 =>
        rw [hget] at h
        obtain rfl := Option.some.inj h
        refine ⟨fun he => absurd he (by simp), fun _ => ?_⟩
        exact ⟨h0, List.get?_mem hget, rfl⟩
    · rw [if_neg hni] at h
      exact absurd h (by simp)

/-- C6: every NavigatorState operation preserves the selection invariant
(empty filtered list carries no selection, non-empty filtered list carries a
member id), and setHeadings via update with no explicit id keeps the
previous selection when its id still occurs in the recomputed filtered list,
otherwise falls back to the first filtered item (none when empty). -/
theorem navigatorState_selInv :
    (∀ (st : PanelModel) (f : String), SelInv (applyFilter st f)) ∧
    (∀ (st : PanelModel) (hs : List HeadingItem) (f : String), SelInv (setHeadingsP st hs f)) ∧
    (∀ (st : PanelModel) (hs : List HeadingItem) (sel : Option String) (pf : Bool),
      SelInv (updateP st hs sel pf)) ∧
    (∀ (st : PanelModel) (delta : Int) (st' : PanelModel),
      moveSelection st delta = some st' → SelInv st') ∧
    (∀ (st : PanelModel) (hs : List HeadingItem) (pf : Bool) (s : String),
      st.selectedHeadingId = some s →
      ((updateP st hs none pf).filtered.any (fun h => h.id = s) = true →
        (updateP st hs none pf).selectedHeadingId = some s) ∧
      ((updateP st hs none pf).filtered.any (fun h => h.id = s) = false →
        (updateP st hs none pf).selectedHeadingId =
          (updateP st hs none pf).filtered.head?.map (·.id))) := by
  refine ⟨applyFilter_selInv, ?_, ?_, moveSelection_preserves_selInv, ?_⟩
  · intro st hs f
    exact applyFilter_selInv { st with headings := hs } f
  · intro st hs sel pf
    exact applyFilter_selInv _ _
  · intro st hs pf s hsel
    have hrw : (updateP st hs none pf).selectedHeadingId =
        repairSelection ((updateP st hs none pf).filtered) st.selectedHeadingId := rfl
    rw [hrw, hsel]
    exact repairSelection_keeps _ s

/-- C7: the geometry branch triggers a correction exactly when the offset
exceeds 12 below the viewport top, or lies above it by more than 1.5; in
particular offset 20 triggers one and offset 8 does not. -/
theorem needsScroll_characterization :
    (∀ o : ℚ, needsScroll o = true ↔ (o > 12 ∨ (o < 0 ∧ |o| > 1.5))) ∧
    needsScroll 20 = true ∧ needsScroll 8 = false := by
  refine ⟨?_, by decide, by decide⟩
  intro o
  simp only [needsScroll, SCROLL_VERIFY_NEGATIVE_TOLERANCE_PX, SCROLL_VERIFY_TOLERANCE_PX]
  by_cases hneg : o < 0
  · rw [if_pos hneg]
    simp only [decide_eq_true_eq]
    constructor
    · intro h; exact Or.inr ⟨hneg, h⟩
    · rintro (h12 | ⟨_, habs⟩)
      · linarith
      · exact habs
  · rw [if_neg hneg]
    simp only [decide_eq_true_eq]
    constructor
    · intro h; exact Or.inl h
    · rintro (h12 | ⟨hn, _⟩)
      · exact h12
      · exact absurd hn hneg

/-- C7 witness: offset 20 evaluated through the characterization. -/
theorem needsScroll_characterization_witness : needsScroll 20 = true :=
  (needsScroll_characterization.1 20).mpr (Or.inl (by norm_num))

/-- C8: every verification session issues at most
SCROLL_VERIFY_MAX_ATTEMPTS = 2 attempts, and after a measurement that finds
the live selection stale no later attempt is ever issued. -/
theorem verifyTrace_budget_and_stale :
    ∀ env : Nat → MeasureOutcome,
      (verifyTrace env 0).length ≤ SCROLL_VERIFY_MAX_ATTEMPTS ∧
      ∀ k : Nat, staleOutcome (env k) → ∀ j ∈ verifyTrace env 0, j ≤ k := by
  intro env
  have h1 : verifyTrace env 1 = [1] := by
    rw [verifyTrace]
    rw [if_neg (by norm_num [SCROLL_VERIFY_MAX_ATTEMPTS])]
    cases henv : env 1 <;> simp [SCROLL_VERIFY_MAX_ATTEMPTS]
  have h0 : verifyTrace env 0 = 0 ::
      (match env 0 with
        | .staleAtRead => []
        | .staleAtWrite => []
        | .retryMeasure => [1]
        | .geom _ => [1]) := by
    rw [verifyTrace]
    rw [if_neg (by norm_num [SCROLL_VERIFY_MAX_ATTEMPTS])]
    cases henv : env 0 <;> simp [SCROLL_VERIFY_MAX_ATTEMPTS, h1]
  constructor
  · rw [h0]
    cases env 0 <;> simp [SCROLL_VERIFY_MAX_ATTEMPTS]
  · intro k hstale j hj
    rw [h0] at hj
    rcases Nat.eq_zero_or_pos k with rfl | hk
    · cases henv : env 0 with
      | staleAtRead =>
        rw [henv] at hj
        simp at hj
        omega
      | staleAtWrite =>
        rw [henv] at hj
        simp at hj
        omega
      | retryMeasure =>
        rw [henv] at hstale
        simp [staleOutcome] at hstale
      | geom o =>
        rw [henv] at hstale
        simp [staleOutcome] at hstale
    · have hj1 : j ≤ 1 := by
        rcases List.mem_cons.mp hj with rfl | hj2
        · omega
        · cases henv : env 0 <;> rw [henv] at hj2 <;> simp at hj2 <;> omega
      omega

/-- Environment in which the very first measurement is stale. -/
def staleEnv : Nat → MeasureOutcome := fun _ => .staleAtRead

/-- C8 witness: with a stale first measurement the session issues no attempt
after attempt zero. -/
theorem verifyTrace_budget_and_stale_witness :
    (verifyTrace staleEnv 0).length ≤ SCROLL_VERIFY_MAX_ATTEMPTS ∧
    ∀ j ∈ verifyTrace staleEnv 0, j ≤ 0 :=
  ⟨(verifyTrace_budget_and_stale staleEnv).1,
   (verifyTrace_budget_and_stale staleEnv).2 0 trivial⟩

/-- Per-character effect of escapeLinkText, collected from its six passes. -/
def escOne (c : Char) : List Char :=
  if c = '\\' then ['\\', '\\']
  else if c = '&' then ['\\', '&']
  else if c = '<' then ['\\', '<']
  else if c = '>' then ['\\', '>']
  else if c = '[' then ['\\', '[']
  else if c = ']' then ['\\', ']']
  else [c]

/-- Character-wise escaping map. -/
def escAll : List Char → List Char
  | [] => []
  | c :: cs => escOne c ++ escAll cs

theorem replaceChar_append (t : Char) (o a b : List Char) :
    replaceChar t o (a ++ b) = replaceChar t o a ++ replaceChar t o b := by
  induction a with
  | nil => rfl
  | cons x xs ih => simp [replaceChar, ih, List.append_assoc]

theorem escChain_eq (l : List Char) :
    replaceChar ']' ['\\', ']'] (replaceChar '[' ['\\', '['] (replaceChar '>' ['\\', '>']
      (replaceChar '<' ['\\', '<'] (replaceChar '&' ['\\', '&']
        (replaceChar '\\' ['\\', '\\'] l))))) = escAll l := by
  induction l with
  | nil => rfl
  | cons c cs ih =>
    by_cases h1 : c = '\\'
    · subst h1; simp [replaceChar, replaceChar_append, ih, escAll, escOne]
    · by_cases h2 : c = '&'
      · subst h2; simp [replaceChar, replaceChar_append, ih, escAll, escOne]
      · by_cases h3 : c = '<'
        · subst h3; simp [replaceChar, replaceChar_append, ih, escAll, escOne]
        · by_cases h4 : c = '>'
          · subst h4; simp [replaceChar, replaceChar_append, ih, escAll, escOne]
          · by_cases h5 : c = '['
            · subst h5; simp [replaceChar, replaceChar_append, ih, escAll, escOne]
            · by_cases h6 : c = ']'
              · subst h6; simp [replaceChar, replaceChar_append, ih, escAll, escOne]
              · simp [replaceChar, replaceChar_append, ih, escAll, escOne,
                  h1, h2, h3, h4, h5, h6]

theorem strExt {a b : String} (h : a.data = b.data) : a = b := by
  cases a; cases b; exact congrArg String.mk h

/-- C9 counterexample: the formatter escapes ampersands (and angle brackets)
in link text, so on heading text consisting of an ampersand it does not
produce the string the claim predicts under an escaping that touches only
backslashes and square brackets. -/
theorem formatHeadingLink_escapes_html_counterexample :
    formatHeadingLink "&" "T" "n" "a" = "[\\& @ T](:/n#a)" ∧
    formatHeadingLink "&" "T" "n" "a" ≠ "[& @ T](:/n#a)" := by
  constructor <;> decide

/-- C9 (amended): the copy-heading-link formatter produces exactly
"[E(h) @ E(t)](:/noteId#anchor)" where the escaping E acts character-wise and
backslash-escapes backslashes, ampersands, angle brackets and square
brackets, leaving every other character unchanged. -/
theorem formatHeadingLink_shape :
    (∀ h t n a : String, formatHeadingLink h t n a =
      "[" ++ escapeLinkText h ++ " @ " ++ escapeLinkText t ++ "](:/" ++ n ++ "#" ++ a ++ ")") ∧
    (∀ s : String, escapeLinkText s = ⟨escAll s.data⟩) ∧
    escOne '\\' = ['\\', '\\'] ∧ escOne '&' = ['\\', '&'] ∧ escOne '<' = ['\\', '<'] ∧
    escOne '>' = ['\\', '>'] ∧ escOne '[' = ['\\', '['] ∧ escOne ']' = ['\\', ']'] ∧
    (∀ c : Char, c ≠ '\\' → c ≠ '&' → c ≠ '<' → c ≠ '>' → c ≠ '[' → c ≠ ']' →
      escOne c = [c]) := by
  refine ⟨?_, ?_, by decide, by decide, by decide, by decide, by decide, by decide, ?_⟩
  · intro h t n a
    apply strExt
    simp only [formatHeadingLink, String.data_append, List.append_assoc]
    simp
  · intro s
    show String.mk _ = _
    exact congrArg String.mk (escChain_eq s.data)
  · intro c hc1 hc2 hc3 hc4 hc5 hc6
    simp [escOne, hc1, hc2, hc3, hc4, hc5, hc6]

/-- C9 witness: the shape applied at concrete inputs, and a non-special
character left unchanged. -/
theorem formatHeadingLink_shape_witness :
    formatHeadingLink "A" "B" "n" "a" =
      "[" ++ escapeLinkText "A" ++ " @ " ++ escapeLinkText "B" ++ "](:/" ++ "n" ++ "#" ++
        "a" ++ ")" ∧
    escOne 'x' = ['x'] :=
  ⟨formatHeadingLink_shape.1 "A" "B" "n" "a",
   formatHeadingLink_shape.2.2.2.2.2.2.2.2 'x' (by decide) (by decide) (by decide)
     (by decide) (by decide) (by decide)⟩

/-- Concrete heading fixtures for panel witnesses. -/
def itemA : HeadingItem := ⟨"heading-0", "Alpha", 1, 0, 7, 0, "alpha"⟩

/-- Second concrete heading fixture. -/
def itemB : HeadingItem := ⟨"heading-8", "Beta", 2, 8, 15, 1, "beta"⟩

/-- Panel state with two filtered headings and the first one selected. -/
def panelAB : PanelModel := ⟨[itemA, itemB], [itemA, itemB], some "heading-0", ""⟩

/-- Panel state whose selection id matches no filtered item. -/
def panelStale : PanelModel := ⟨[itemA], [itemA], some "heading-99", ""⟩

/-- C5 witness: moveSelection(-1) from index 0 of a two-item list wraps to
index (0 - 1 + 2) mod 2 = 1. -/
theorem moveSelection_wraps_witness :
    moveSelection panelAB (-1) =
      some { panelAB with selectedHeadingId :=
        (panelAB.filtered.get? ((((0 : Nat) : Int) + (-1) + (panelAB.filtered.length : Int)) %
          (panelAB.filtered.length : Int)).toNat).map (·.id) } :=
  moveSelection_wraps.1 panelAB "heading-0" 0 (-1) rfl (by decide) (by decide)

/-- C10 witness: a stale selection falls back to the first filtered item for
a delta of 5. -/
theorem moveSelection_stale_first_witness :
    moveSelection panelStale 5 = some { panelStale with selectedHeadingId := some itemA.id } :=
  moveSelection_stale_first panelStale 5 itemA [] rfl (by decide)

/-- C6 witness: the invariant after a concrete filter application and a
concrete moveSelection, and preservation of a still-valid selection across a
concrete update without an explicit id. -/
theorem navigatorState_selInv_witness :
    SelInv (applyFilter panelAB "beta") ∧
    SelInv { panelAB with selectedHeadingId := some "heading-8" } ∧
    (updateP panelAB [itemA] none true).selectedHeadingId = some "heading-0" :=
  ⟨navigatorState_selInv.1 panelAB "beta",
   navigatorState_selInv.2.2.2.1 panelAB 1 { panelAB with selectedHeadingId := some "heading-8" }
     (by decide),
   (navigatorState_selInv.2.2.2.2 panelAB [itemA] true "heading-0" rfl).1 (by decide)⟩

/-- C4 witness: the matcher soundness applied to a concrete match of
underscore emphasis followed by a space. -/
theorem stripInlineMarkdown_underscore_boundary_witness :
    ['_', 'a', 'b', '_', ' ', 'x'] = '_' :: (['a', 'b'] ++ '_' :: [' ', 'x']) ∧
    '_' ∉ ['a', 'b'] ∧
    (['a', 'b'] : List Char) ≠ [] ∧
    jsWs (['a', 'b'].headD ' ') = false ∧
    jsWs (['a', 'b'].getLastD ' ') = false ∧
    (([' ', 'x'] : List Char) = [] ∨ jsWs ([' ', 'x'].headD ' ') = true) :=
  stripInlineMarkdown_underscore_boundary.1 ['_', 'a', 'b', '_', ' ', 'x'] ['a', 'b']
    [' ', 'x'] (by decide)
